import Mathlib

/-!
Verification of the content-resolution and translation pipeline of the
manga-translate server (`server` entry of the repository, together with
`src/services/mangaProvider.js`).

The TypeScript/JavaScript code is shallowly embedded:

* JS numbers are idealised as rationals (`ℚ`); timestamps (`Date.now()`,
  millisecond integers) as `ℤ`.
* A JS `Map` is an association list in key-insertion order; `Map.set` on an
  existing key updates the value in place, `Map.values()` iterates in
  insertion order.
* `Array.prototype.sort` is modelled as a stable insertion sort driven by the
  comparator's sign, matching the ECMAScript requirement (stable, comparator
  result `< 0` puts the first argument first).  When the comparator returns
  `NaN` (modelled as `none`) ECMAScript leaves the order
  implementation-defined; the model then keeps the element in place, which is
  one admissible behaviour.
* `parseFloat` is modelled over `ℚ` on finite decimal literals (sign, digits,
  fraction, exponent); `none` models `NaN`.  The `Infinity` production is not
  modelled (it also yields `none`).
* Fallible external calls (HTTP fetches, the Python bridge, `JSON.parse`)
  are environment inputs of the embedded functions.
-/

/-- Value of a list of decimal digit characters. -/
def digitsToNat (l : List Char) : Nat :=
  l.foldl (fun a c => a * 10 + (c.toNat - 48)) 0

/-- Model of JavaScript `parseFloat`: longest numeric prefix after optional
whitespace and sign; `none` models `NaN` (no digits at all). -/
def jsParseFloat (s : String) : Option ℚ :=
  let cs := (s.toList).dropWhile (fun c => c = ' ' ∨ c = '\t' ∨ c = '\n' ∨ c = '\r')
  let sgn : ℚ := match cs with | '-' :: _ => -1 | _ => 1
  let cs1 : List Char := match cs with
    | '-' :: r => r
    | '+' :: r => r
    | _ => cs
  let ip := cs1.takeWhile Char.isDigit
  let cs2 := cs1.dropWhile Char.isDigit
  let fp : List Char := match cs2 with
    | '.' :: r => r.takeWhile Char.isDigit
    | _ => []
  let cs3 : List Char := match cs2 with
    | '.' :: r => r.dropWhile Char.isDigit
    | _ => cs2
  if ip = [] ∧ fp = [] then none
  else
    let mantissa : ℚ := (digitsToNat ip : ℚ) + (digitsToNat fp : ℚ) / ((10 : ℚ) ^ fp.length)
    let expo : ℤ := match cs3 with
      | 'e' :: r | 'E' :: r =>
        match r with
        | '-' :: r2 => -((digitsToNat (r2.takeWhile Char.isDigit) : ℤ))
        | '+' :: r2 => (digitsToNat (r2.takeWhile Char.isDigit) : ℤ)
        | _ => (digitsToNat (r.takeWhile Char.isDigit) : ℤ)
      | _ => 0
    some (sgn * (mantissa * (10 : ℚ) ^ expo))

/-- One step of a stable insertion sort: `x` is placed before the first
element `g` with `lt x g = true`.  This models ECMAScript
`Array.prototype.sort` (stable; the comparator's sign decides the order, a
`NaN` comparator result keeps elements in place). -/
def jsSortInsert (lt : α → α → Bool) (x : α) : List α → List α
  | [] => [x]
  | g :: rest => if lt x g then x :: g :: rest else g :: jsSortInsert lt x rest

/-- Stable sort of a JS array by a comparator-derived strict test. -/
def jsSort (lt : α → α → Bool) (l : List α) : List α :=
  l.foldl (fun acc x => jsSortInsert lt x acc) []

/-- JS `Map.set`: update an existing key in place, otherwise append. -/
def mapSet (m : List (String × β)) (k : String) (v : β) : List (String × β) :=
  match m with
  | [] => [(k, v)]
  | (k', v') :: rest => if k' = k then (k, v) :: rest else (k', v') :: mapSet rest k v

/-- JS `Map.get` / `Map.has` (as an option). -/
def mapGet? (m : List (String × β)) (k : String) : Option β :=
  match m with
  | [] => none
  | (k', v') :: rest => if k' = k then some v' else mapGet? rest k

/-! ## TTL cache (`apiCache` / `getCached` / `setCache`, server lines 18–28) -/

/-- One cache slot: `{ data, ts }` with `ts = Date.now()` at insertion. -/
structure CacheEntry (α : Type) where
  data : α
  ts : ℤ
deriving DecidableEq

/-- The constant `CACHE_TTL = 10 * 60 * 1000` milliseconds. -/
def CACHE_TTL : ℤ := 10 * 60 * 1000

/-- Lookup `getCached(key)` at current time `now`: returns the stored value if an
entry exists and `now - entry.ts < CACHE_TTL`, otherwise `null` (modelled
`none`).  A miss is an ordinary return value, never an exception. -/
def getCached (c : List (String × CacheEntry α)) (key : String) (now : ℤ) : Option α :=
  match mapGet? c key with
  | some e => if now - e.ts < CACHE_TTL then some e.data else none
  | none => none

/-- Insertion `setCache(key, data)` at current time `t`. -/
def setCache (c : List (String × CacheEntry α)) (key : String) (v : α) (t : ℤ) :
    List (String × CacheEntry α) :=
  mapSet c key ⟨v, t⟩

/-! ## Chapter resolver (`GET /api/manga/:id/chapters`, server lines 583–673)

The mangadex feed items carry the attributes the handler reads
(`attributes.chapter/volume/title/translatedLanguage` plus the item `id`).
`Option String` models a possibly `null`/`undefined` JSON string field. -/

/-- One item of the mangadex feed `json.data`. -/
structure FeedChapter where
  id : String
  chapter : Option String
  volume : Option String
  title : Option String
  translatedLanguage : String
deriving DecidableEq, Repr

/-- One entry of the chapter list the endpoint returns. -/
structure ChapterOut where
  id : String
  chapter : Option String
  volume : Option String
  title : Option String
  language : String
deriving DecidableEq, Repr

/-- The list `langPriority` (server line 605). -/
def langPriority : List String :=
  ["en", "ja", "ko", "zh", "zh-hk", "zh-ro", "fr", "es", "pt-br", "ru"]

/-- JS `Array.prototype.indexOf` result (`-1` when absent). -/
def indexOfJS (l : List String) (s : String) : ℤ :=
  match l with
  | [] => -1
  | x :: rest => if x = s then 0 else
      let r := indexOfJS rest s
      if r = -1 then -1 else r + 1

/-- Priority index of a language (server `langPriority.indexOf`). -/
def langIndex (lang : String) : ℤ := indexOfJS langPriority lang

/-- The body of the `json.data.forEach` callback of `buildChapterList`
(server lines 620–637): filter out chapters with no / `"0"` / `"0.0"`
number, then deduplicate by chapter number with language priority. -/
def chapterMapStep (m : List (String × FeedChapter)) (c : FeedChapter) :
    List (String × FeedChapter) :=
  match c.chapter with
  | none => m
  | some chapNum =>
    if chapNum = "" ∨ chapNum = "0" ∨ chapNum = "0.0" then m
    else
      match mapGet? m chapNum with
      | none => mapSet m chapNum c
      | some existing =>
        let newPriority := langIndex c.translatedLanguage
        let existingPriority := langIndex existing.translatedLanguage
        if existingPriority = -1 ∨ (newPriority ≠ -1 ∧ newPriority < existingPriority) then
          mapSet m chapNum c
        else m

/-- Comparator-derived strict test of the `.sort` call (server line 639):
`parseFloat(a.attributes.chapter) - parseFloat(b.attributes.chapter) < 0`;
a `NaN` difference (`none`) never reorders. -/
def chapterLt (a b : FeedChapter) : Bool :=
  match a.chapter.bind jsParseFloat, b.chapter.bind jsParseFloat with
  | some x, some y => decide (x < y)
  | _, _ => false

/-- The function `buildChapterList` (server lines 617–647). -/
def buildChapterList (data : List FeedChapter) : List ChapterOut :=
  if data = [] then []
  else
    let m := data.foldl chapterMapStep []
    (jsSort chapterLt (m.map (·.2))).map fun c =>
      ⟨c.id, c.chapter, c.volume, c.title, c.translatedLanguage⟩

/-- One chapter of a `mangascrape` result (`manga.getChapters()` item). -/
structure ScrapeChapter where
  url : String
  chapter : String
  title : String
deriving DecidableEq, Repr

/-- One `Manga.search` result: only its chapters are consumed. -/
structure ScrapeManga where
  chapters : List ScrapeChapter
deriving DecidableEq, Repr

/-- External collaborators of the chapter endpoint: the mangadex feed by
manga id (`fetchChaptersForId`), the mangadex title search (ids of
`searchData.data`, best match first) and the `mangascrape` title search. -/
structure ChapterEnv where
  feed : String → List FeedChapter
  searchIds : String → List String
  scrapeSearch : String → List ScrapeManga

/-- Observable actions of one resolution (for the cascade claims):
whether the title search ran, and the corrected id refetched (if any). -/
structure ChapterTrace where
  titleSearched : Bool
  refetchedId : Option String
deriving DecidableEq, Repr

/-- Endpoint `GET /api/manga/:id/chapters` (server lines 583–668): the mangakakalot
branch maps the first scrape result's chapters verbatim; the mangadex branch
builds the chapter list from the feed and, when it is empty and a title was
given, retries once against the top title-search id if it differs. -/
def resolveChapters (env : ChapterEnv) (id title source : String) :
    List ChapterOut × ChapterTrace :=
  if source = "mangakakalot" then
    match env.scrapeSearch title with
    | [] => ([], ⟨false, none⟩)
    | m :: _ =>
      (m.chapters.map fun ch => ⟨ch.url, some ch.chapter, none, some ch.title, "en"⟩,
        ⟨false, none⟩)
  else
    let chapters := buildChapterList (env.feed id)
    if chapters = [] ∧ title ≠ "" then
      match env.searchIds title with
      | [] => (chapters, ⟨true, none⟩)
      | correctId :: _ =>
        if correctId ≠ id then
          (buildChapterList (env.feed correctId), ⟨true, some correctId⟩)
        else (chapters, ⟨true, none⟩)
    else (chapters, ⟨false, none⟩)

/-! ## Page resolver (`GET /api/manga/chapter/:id/pages`, server lines 676–744)

For the mangadex source the handler reads the at-home server response and
cascades: full-quality `chapter.data`, then `chapter.dataSaver`.  When both
are missing/empty (or the response is invalid) control reaches the 0-pages
fallback block, whose first statement (server line 708) reads the variable
`id` — but the handler destructured `req.params` as
`{ id: chapterIdOrUrl }`, so `id` is unbound and evaluating the template
literal throws a `ReferenceError`, caught by the outer handler which sends
HTTP 500 (`'Server error fetching pages'`).  The community-upload fallback
code (lines 709–737) is therefore unreachable. -/

/-- Field `json.chapter` of the at-home response.  An absent `data`/`dataSaver`
array behaves like an empty one in the guards (`data && data.length > 0`). -/
structure AtHomeChapter where
  hash : String
  data : List String
  dataSaver : List String
deriving DecidableEq, Repr

/-- The at-home server response; `baseUrl` keeps its raw JS truthiness
(`none` = absent, `some ""` is falsy too). -/
structure AtHomeResp where
  baseUrl : Option String
  chapter : Option AtHomeChapter
deriving DecidableEq, Repr

/-- HTTP outcome of the pages handler for the mangadex source. -/
inductive PagesResult where
  | ok (pages : List String)
  | serverError
deriving DecidableEq, Repr

/-- Outcome plus the observable cascade actions: whether the data-saver tier
was consulted (its guard evaluated) and whether the community-upload
fallback providers were ever invoked. -/
structure PagesOutcome where
  result : PagesResult
  dataSaverConsulted : Bool
  communityInvoked : Bool
deriving DecidableEq, Repr

/-- The mangadex branch of `GET /api/manga/chapter/:id/pages` (server lines
687–744).  The unreachable fallback block is modelled by its actual runtime
behaviour: the `ReferenceError` on the unbound `id` at line 708 propagates
to the outer catch, which responds 500; no community provider is called. -/
def resolveMdPages (resp : AtHomeResp) : PagesOutcome :=
  match resp.baseUrl, resp.chapter with
  | some baseUrl, some ch =>
    if baseUrl ≠ "" then
      if ch.data ≠ [] then
        ⟨.ok (ch.data.map fun f => baseUrl ++ "/data/" ++ ch.hash ++ "/" ++ f), false, false⟩
      else if ch.dataSaver ≠ [] then
        ⟨.ok (ch.dataSaver.map fun f => baseUrl ++ "/data-saver/" ++ ch.hash ++ "/" ++ f),
          true, false⟩
      else ⟨.serverError, true, false⟩
    else ⟨.serverError, false, false⟩
  | _, _ => ⟨.serverError, false, false⟩

/-! ## OCR block clusterer (`POST /api/ai/translate`, server lines 797–831) -/

/-- A bounding box in source-image pixel space. -/
structure BBox where
  x0 : ℚ
  y0 : ℚ
  x1 : ℚ
  y1 : ℚ
deriving DecidableEq, Repr

/-- One Tesseract word token. -/
structure Word where
  text : String
  bbox : BBox
  confidence : ℚ
deriving DecidableEq, Repr

/-- One clustered text block. -/
structure Block where
  text : String
  bbox : BBox
deriving DecidableEq, Repr

/-- Componentwise hull of two boxes (the four `Math.min`/`Math.max` updates
of the merge branch, server lines 821–824). -/
def bboxHull (a b : BBox) : BBox :=
  ⟨min a.x0 b.x0, min a.y0 b.y0, max a.x1 b.x1, max a.y1 b.y1⟩

/-- State of the clustering loop: finished `blocks` and `currentBlock`. -/
structure ClusterState where
  blocks : List Block
  currentBlock : Block
deriving DecidableEq, Repr

/-- Initial `currentBlock` value: empty text, all-zero bbox (server line 799). -/
def initClusterState : ClusterState := ⟨[], ⟨"", ⟨0, 0, 0, 0⟩⟩⟩

/-- The merge test of the loop body (server line 819), with the locals
`verticalGap = Math.abs(wb.y0 - currentBlock.bbox.y0)`,
`horizontalGap = wb.x0 - currentBlock.bbox.x1` and
`lineHeight = currentBlock.bbox.y1 - currentBlock.bbox.y0` inlined:
`verticalGap < lineHeight * 1.5 && horizontalGap > -lineHeight &&
horizontalGap < lineHeight * 3`. -/
def mergeCond (cur : Block) (w : Word) : Prop :=
  |w.bbox.y0 - cur.bbox.y0| < (cur.bbox.y1 - cur.bbox.y0) * 1.5
  ∧ w.bbox.x0 - cur.bbox.x1 > -(cur.bbox.y1 - cur.bbox.y0)
  ∧ w.bbox.x0 - cur.bbox.x1 < (cur.bbox.y1 - cur.bbox.y0) * 3

instance (cur : Block) (w : Word) : Decidable (mergeCond cur w) := by
  unfold mergeCond; infer_instance

/-- One iteration of the `for (const word of ocrData.words)` loop
(server lines 801–830). -/
def processWord (st : ClusterState) (w : Word) : ClusterState :=
  let width := w.bbox.x1 - w.bbox.x0
  let height := w.bbox.y1 - w.bbox.y0
  if w.confidence < 70 then st
  else if width < 5 ∨ height < 5 then st
  else if st.currentBlock.text = "" then { st with currentBlock := ⟨w.text, w.bbox⟩ }
  else
    if mergeCond st.currentBlock w then
      { st with currentBlock :=
          ⟨st.currentBlock.text ++ " " ++ w.text, bboxHull st.currentBlock.bbox w.bbox⟩ }
    else
      ⟨st.blocks ++ [st.currentBlock], ⟨w.text, w.bbox⟩⟩

/-- The whole clustering pass, including the final
`if (currentBlock.text) blocks.push(currentBlock)` (server line 831). -/
def clusterWords (ws : List Word) : List Block :=
  let st := ws.foldl processWord initClusterState
  if st.currentBlock.text = "" then st.blocks else st.blocks ++ [st.currentBlock]

/-! ## Translation orchestrator (`POST /api/ai/translate` lines 845–890 and
`POST /api/ai/translate-only` lines 898–962)

The Python bridge round trip and `JSON.parse` are modelled as an oracle
input: `none` stands for a failed exchange (bridge error or unparsable
stdout, i.e. the `catch` branch), `some v` for the parsed JSON value. -/

/-- A parsed JSON value, as far as the handlers inspect it. -/
inductive JsVal where
  | vstr (s : String)
  | vnum (q : ℚ)
  | vbool (b : Bool)
  | vnull
  | varr (l : List JsVal)

/-- JS truthiness of a `JsVal` (`NaN` numbers do not occur here). -/
def JsVal.truthy : JsVal → Bool
  | .vstr s => s ≠ ""
  | .vnum q => q ≠ 0
  | .vbool b => b
  | .vnull => false
  | .varr _ => true

/-- JS indexing `v[i]`: `none` models `undefined` (out of range or not an
array). -/
def JsVal.arrGet? : JsVal → ℕ → Option JsVal
  | .varr l, i => l.get? i
  | _, _ => none

/-- One entry of the `translations` response of `POST /api/ai/translate`. -/
structure Translation where
  original : String
  translated : JsVal
  x : ℚ
  y : ℚ
  width : ℚ
  height : ℚ

/-- Slot value `translatedTexts[i] || block.text` (server line 870), and
the whole-fallback `catch` branch (lines 878–890) when `parsed = none`. -/
def slotTranslated (parsed : Option JsVal) (i : ℕ) (b : Block) : JsVal :=
  match parsed with
  | none => .vstr b.text
  | some v =>
    match v.arrGet? i with
    | some e => if e.truthy then e else .vstr b.text
    | none => .vstr b.text

/-- The response entry built from block `b` at slot `i`. -/
def mkTranslation (parsed : Option JsVal) (i : ℕ) (b : Block) : Translation :=
  ⟨b.text, slotTranslated parsed i b,
    b.bbox.x0, b.bbox.y0, b.bbox.x1 - b.bbox.x0, b.bbox.y1 - b.bbox.y0⟩

/-- The map `blocks.map((block, i) => ...)` starting at slot `i`. -/
def padFrom (parsed : Option JsVal) (i : ℕ) : List Block → List Translation
  | [] => []
  | b :: rest => mkTranslation parsed i b :: padFrom parsed (i + 1) rest

/-- The `translations` array `POST /api/ai/translate` responds with
(server lines 865–890), as a function of the bridge/parse outcome. -/
def bridgeTranslations (blocks : List Block) (parsed : Option JsVal) : List Translation :=
  padFrom parsed 0 blocks

/-- The `translations` value `POST /api/ai/translate-only` responds with
(server lines 938–957): `[]` when the bridge stdout is blank
(`!resultData.trim()`), the parsed value verbatim on parse success, `[]` on
parse failure.  The input `texts` play no role in this shape. -/
def translateOnlyTranslations (_texts : List String) (stdoutBlank : Bool)
    (parsed : Option JsVal) : JsVal :=
  if stdoutBlank then .varr []
  else
    match parsed with
    | some v => v
    | none => .varr []

/-- A clustered block together with the tokens that formed it (the starting
token and every token merged into it, in processing order).  This is the
clustering loop instrumented with a ghost token log; it projects onto
`processWord` exactly (see `clusterWordsG_project`). -/
structure GBlock where
  block : Block
  tokens : List Word
deriving DecidableEq, Repr

/-- Ghost-instrumented cluster state. -/
structure GClusterState where
  blocks : List GBlock
  currentBlock : GBlock
deriving DecidableEq, Repr

/-- Ghost counterpart of `initClusterState`. -/
def initGClusterState : GClusterState := ⟨[], ⟨⟨"", ⟨0, 0, 0, 0⟩⟩, []⟩⟩

/-- Ghost counterpart of `processWord`: identical control flow, with the
token log extended alongside each bbox update. -/
def processWordG (st : GClusterState) (w : Word) : GClusterState :=
  if w.confidence < 70 then st
  else if w.bbox.x1 - w.bbox.x0 < 5 ∨ w.bbox.y1 - w.bbox.y0 < 5 then st
  else if st.currentBlock.block.text = "" then
    { st with currentBlock := ⟨⟨w.text, w.bbox⟩, [w]⟩ }
  else
    if mergeCond st.currentBlock.block w then
      { st with currentBlock :=
          ⟨⟨st.currentBlock.block.text ++ " " ++ w.text,
              bboxHull st.currentBlock.block.bbox w.bbox⟩,
            st.currentBlock.tokens ++ [w]⟩ }
    else
      ⟨st.blocks ++ [st.currentBlock], ⟨⟨w.text, w.bbox⟩, [w]⟩⟩

/-- Ghost counterpart of `clusterWords`. -/
def clusterWordsG (ws : List Word) : List GBlock :=
  let st := ws.foldl processWordG initGClusterState
  if st.currentBlock.block.text = "" then st.blocks else st.blocks ++ [st.currentBlock]

/-- Forget the ghost token log of a state. -/
def GClusterState.forget (st : GClusterState) : ClusterState :=
  ⟨st.blocks.map (·.block), st.currentBlock.block⟩

/-- Region containment: `a` contains `b`. -/
def bboxContains (a b : BBox) : Prop :=
  a.x0 ≤ b.x0 ∧ a.y0 ≤ b.y0 ∧ b.x1 ≤ a.x1 ∧ b.y1 ≤ a.y1

/-- Componentwise hull of the boxes of a starting token and the tokens
merged after it. -/
def hullOfTokens (w0 : Word) (ws : List Word) : BBox :=
  ws.foldl (fun acc w => bboxHull acc w.bbox) w0.bbox

/-- The invariant carried by each finished ghost block. -/
def GBlockWf (g : GBlock) : Prop :=
  g.block.text ≠ ""
  ∧ ∃ w0 ws, g.tokens = w0 :: ws ∧ g.block.bbox = hullOfTokens w0 ws

/-- The chapter-number filter of `buildChapterList` (server line 625)
as a predicate on map keys. -/
def keyGood (k : String) : Prop := ¬(k = "" ∨ k = "0" ∨ k = "0.0")

instance (k : String) : Decidable (keyGood k) := by
  unfold keyGood; infer_instance

/-- Invariant of the dedup map: keys are pairwise distinct, each value's
`chapter` attribute is its key, keys passed the chapter-0 filter, and each
value satisfies `P` (instantiated with membership in the input feed). -/
def ChapterMapInv (P : FeedChapter → Prop) (m : List (String × FeedChapter)) : Prop :=
  m.Pairwise (fun a b => a.1 ≠ b.1)
  ∧ ∀ e ∈ m, e.2.chapter = some e.1 ∧ keyGood e.1 ∧ P e.2

/-! ## Sortedness of the chapter list (C3) -/

/-- The sort key of the comparator: `parseFloat` of the chapter attribute. -/
def chapKey (c : FeedChapter) : Option ℚ := c.chapter.bind jsParseFloat

/-- "`a` is numerically at most `b`": both chapter numbers parse as decimal
numbers and compare accordingly.  This is the reading of "sorted in
ascending numerical order (compared as decimal numbers)". -/
def numLE (a b : Option String) : Prop :=
  ∃ x y, a.bind jsParseFloat = some x ∧ b.bind jsParseFloat = some y ∧ x ≤ y

/-- The scrape environment of the C3 counterexample: one mangakakalot
result whose chapters arrive in the order `"2"`, `"1"`. -/
def envScrapeUnsorted : ChapterEnv :=
  ⟨fun _ => [], fun _ => [], fun _ => [⟨[⟨"u2", "2", "t"⟩, ⟨"u1", "1", "t"⟩]⟩]⟩

/-! ## Language-priority deduplication (C4) -/

/-- The choice the dedup branch makes between the kept version `a` and a
newly seen version `b` of the same chapter number (server lines 630–636):
replace exactly when `existingPriority === -1 ||
(newPriority !== -1 && newPriority < existingPriority)`. -/
def pickVersion (a b : FeedChapter) : FeedChapter :=
  if langIndex a.translatedLanguage = -1
      ∨ (langIndex b.translatedLanguage ≠ -1
          ∧ langIndex b.translatedLanguage < langIndex a.translatedLanguage)
  then b else a

theorem mapGet?_mapSet_self (m : List (String × β)) (k : String) (v : β) :
    mapGet? (mapSet m k v) k = some v := by
  induction m with
  | nil => simp [mapSet, mapGet?]
  | cons h t ih =>
    obtain ⟨k', v'⟩ := h
    by_cases hk : k' = k
    · subst hk; simp [mapSet, mapGet?]
    · simp [mapSet, mapGet?, hk, ih]

/-- C9: a value set at time `t` is visible exactly on `now - t < TTL`;
a never-set key is absent; a miss is the ordinary value `none`, not an
error. -/
theorem cache_ttl_visibility {α : Type} (c : List (String × CacheEntry α))
    (k : String) (v : α) (t now : ℤ) :
    (getCached (setCache c k v t) k now
        = if now - t < CACHE_TTL then some v else none)
      ∧ (now < t + CACHE_TTL → getCached (setCache c k v t) k now = some v)
      ∧ (t + CACHE_TTL ≤ now → getCached (setCache c k v t) k now = none)
      ∧ (∀ c' : List (String × CacheEntry α), mapGet? c' k = none →
          getCached c' k now = none) := by
  refine ⟨?_, ?_, ?_, ?_⟩
  · simp [getCached, setCache, mapGet?_mapSet_self]
  · intro h
    simp [getCached, setCache, mapGet?_mapSet_self]
    omega
  · intro h
    simp [getCached, setCache, mapGet?_mapSet_self]
    omega
  · intro c' hc'
    simp [getCached, hc']

/-- Witness for C9 at a concrete cache, key, value and times. -/
theorem cache_ttl_visibility_witness :
    (getCached (setCache ([] : List (String × CacheEntry ℕ)) "k" 7 1000) "k" 1500
        = if (1500 : ℤ) - 1000 < CACHE_TTL then some 7 else none)
      ∧ ((1500 : ℤ) < 1000 + CACHE_TTL →
          getCached (setCache ([] : List (String × CacheEntry ℕ)) "k" 7 1000) "k" 1500 = some 7)
      ∧ ((1000 : ℤ) + CACHE_TTL ≤ 1500 →
          getCached (setCache ([] : List (String × CacheEntry ℕ)) "k" 7 1000) "k" 1500 = none)
      ∧ (∀ c' : List (String × CacheEntry ℕ), mapGet? c' "k" = none →
          getCached c' "k" 1500 = none) :=
  cache_ttl_visibility [] "k" 7 1000 1500

/-! ## Theorems for the page cascade (C1, C2) -/

/-- C1: for the mangadex source, the full-quality list is tried first and
returned verbatim (as URLs) when non-empty, with the data-saver tier not
consulted and the community fallback not invoked; the data-saver guard is
only ever evaluated when the full-quality list was empty; the community
fallback is never invoked at all (its block is unreachable), so in
particular it is only reachable when both tiers yielded zero pages. -/
theorem md_pages_cascade (resp : AtHomeResp) :
    (∀ baseUrl ch, resp.baseUrl = some baseUrl → baseUrl ≠ "" →
        resp.chapter = some ch → ch.data ≠ [] →
        resolveMdPages resp =
          ⟨.ok (ch.data.map fun f => baseUrl ++ "/data/" ++ ch.hash ++ "/" ++ f),
            false, false⟩)
    ∧ ((resolveMdPages resp).dataSaverConsulted = true →
        ∃ ch, resp.chapter = some ch ∧ ch.data = [])
    ∧ (resolveMdPages resp).communityInvoked = false := by
  obtain ⟨bu, chap⟩ := resp
  refine ⟨?_, ?_, ?_⟩
  · rintro baseUrl ch rfl hne rfl hdata
    simp [resolveMdPages, hne, hdata]
  · cases bu with
    | none => simp [resolveMdPages]
    | some b =>
      cases chap with
      | none => simp [resolveMdPages]
      | some ch =>
        by_cases hb : b ≠ ""
        · by_cases hd : ch.data = []
          · intro _; exact ⟨ch, rfl, hd⟩
          · simp [resolveMdPages, hb, hd]
        · simp [resolveMdPages, hb]
  · cases bu with
    | none => simp [resolveMdPages]
    | some b =>
      cases chap with
      | none => simp [resolveMdPages]
      | some ch =>
        by_cases hb : b ≠ ""
        · by_cases hd : ch.data = []
          · by_cases hs : ch.dataSaver = [] <;> simp [resolveMdPages, hb, hd, hs]
          · simp [resolveMdPages, hb, hd]
        · simp [resolveMdPages, hb]

/-- Witness for C1: a response with one full-quality page resolves to that
page's URL without touching the other tiers. -/
theorem md_pages_cascade_witness :
    resolveMdPages ⟨some "b", some ⟨"h", ["f1"], ["s1"]⟩⟩
      = ⟨.ok ["b/data/h/f1"], false, false⟩ :=
  (md_pages_cascade ⟨some "b", some ⟨"h", ["f1"], ["s1"]⟩⟩).1 "b" ⟨"h", ["f1"], ["s1"]⟩
    rfl (by decide) rfl (by decide)

/-- C2 (code bug): with both quality tiers empty, the handler does not reach
the community fallback or the final `return res.json([])`: the fallback
block's first statement reads the unbound variable `id` (the handler bound
`chapterIdOrUrl` instead), the `ReferenceError` is caught by the outer
handler and the request fails with HTTP 500 instead of succeeding with an
empty list. -/
theorem md_pages_exhausted_is_500 :
    resolveMdPages ⟨some "https://s", some ⟨"h", [], []⟩⟩ = ⟨.serverError, true, false⟩
    ∧ (resolveMdPages ⟨some "https://s", some ⟨"h", [], []⟩⟩).result ≠ .ok [] := by
  constructor <;> decide

/-! ## Theorems for the chapter resolver cascade (C5) -/

/-- C5: when the primary (mangadex) lookup by `id` yields zero chapters
after filtering and the title is non-empty, the resolver performs the title
search; with a top match `correctId` it refetches and returns the corrected
feed's list exactly when `correctId ≠ id`, and returns the empty list
otherwise. -/
theorem title_identity_correction (env : ChapterEnv) (id title : String)
    (correctId : String) (rest : List String)
    (hempty : buildChapterList (env.feed id) = [])
    (htitle : title ≠ "")
    (hsearch : env.searchIds title = correctId :: rest) :
    resolveChapters env id title "mangadex"
      = if correctId ≠ id then
          (buildChapterList (env.feed correctId), ⟨true, some correctId⟩)
        else ([], ⟨true, none⟩) := by
  by_cases hid : correctId ≠ id <;>
    simp [resolveChapters, hempty, htitle, hsearch, hid]

/-- Witness for C5: a stale id with an empty feed is corrected through the
title search and the corrected id's chapters are returned. -/
theorem title_identity_correction_witness :
    resolveChapters
        ⟨fun i => if i = "new" then [⟨"c1", some "1", none, none, "en"⟩] else [],
          fun _ => ["new"], fun _ => []⟩ "old" "T" "mangadex"
      = if "new" ≠ "old" then
          (buildChapterList
              ((fun i => if i = "new" then [⟨"c1", some "1", none, none, "en"⟩] else [])
                "new"),
            ⟨true, some "new"⟩)
        else ([], ⟨true, none⟩) :=
  title_identity_correction
    ⟨fun i => if i = "new" then [⟨"c1", some "1", none, none, "en"⟩] else [],
      fun _ => ["new"], fun _ => []⟩ "old" "T" "new" []
    (by simp [buildChapterList]) (by decide) rfl

/-! ## Theorems for the translation orchestrator (C8) -/

theorem padFrom_length (parsed : Option JsVal) (i : ℕ) (bs : List Block) :
    (padFrom parsed i bs).length = bs.length := by
  induction bs generalizing i with
  | nil => rfl
  | cons b rest ih => simp [padFrom, ih]

theorem padFrom_get? (parsed : Option JsVal) (i j : ℕ) (bs : List Block) (b : Block)
    (hb : bs.get? j = some b) :
    (padFrom parsed i bs).get? j = some (mkTranslation parsed (i + j) b) := by
  induction bs generalizing i j with
  | nil => simp at hb
  | cons x rest ih =>
    cases j with
    | zero => simp_all [padFrom]
    | succ j' =>
      simp only [List.get?] at hb
      have := ih (i + 1) j' hb
      simpa [padFrom, Nat.add_assoc, Nat.add_comm 1 j'] using this

/-- C8 counterexample: the claim fails on the translate-only endpoint.  For
the request `texts = ["hello", "world"]` whose bridge stdout parses to the
empty JSON array, the handler responds with that empty array verbatim — zero
entries for two inputs, with no original-text padding. -/
theorem translate_only_not_padded :
    translateOnlyTranslations ["hello", "world"] false (some (.varr [])) = .varr []
    ∧ ([] : List JsVal).length ≠ (["hello", "world"] : List String).length := by
  exact ⟨rfl, by decide⟩

/-- C8 (amended): for the OCR-translate pipeline endpoint
(`POST /api/ai/translate`) the response has exactly one entry per clustered
block, in input order, each carrying the block's text as `original`; every
slot for which the bridge produced no usable value (failed exchange or
unparsable stdout, missing/short or non-array result, falsy element) carries
the original text as its translation.  The translate-only endpoint instead
returns the bridge's parsed array verbatim (or `[]`), as the counterexample
shows. -/
theorem bridge_padding (blocks : List Block) (parsed : Option JsVal) :
    (bridgeTranslations blocks parsed).length = blocks.length
    ∧ (∀ j b, blocks.get? j = some b →
        ∃ tr, (bridgeTranslations blocks parsed).get? j = some tr
          ∧ tr.original = b.text
          ∧ ((parsed = none
                ∨ (∃ v, parsed = some v ∧ v.arrGet? j = none)
                ∨ (∃ v e, parsed = some v ∧ v.arrGet? j = some e ∧ e.truthy = false)) →
              tr.translated = .vstr b.text)) := by
  constructor
  · exact padFrom_length parsed 0 blocks
  · intro j b hb
    refine ⟨mkTranslation parsed j b, ?_, rfl, ?_⟩
    · simpa using padFrom_get? parsed 0 j blocks b hb
    · rintro (rfl | ⟨v, rfl, hv⟩ | ⟨v, e, rfl, hv, he⟩)
      · rfl
      · simp [mkTranslation, slotTranslated, hv]
      · simp [mkTranslation, slotTranslated, hv, he]

/-- Witness for C8 at a two-block request whose bridge returned a single
usable string: the first slot is translated, the second padded with its
original text. -/
theorem bridge_padding_witness :
    (bridgeTranslations
        [⟨"a", ⟨0, 0, 1, 1⟩⟩, ⟨"b", ⟨2, 2, 3, 3⟩⟩]
        (some (.varr [.vstr "A"]))).length
      = ([⟨"a", ⟨0, 0, 1, 1⟩⟩, ⟨"b", ⟨2, 2, 3, 3⟩⟩] : List Block).length
    ∧ ∃ tr, (bridgeTranslations
          [⟨"a", ⟨0, 0, 1, 1⟩⟩, ⟨"b", ⟨2, 2, 3, 3⟩⟩]
          (some (.varr [.vstr "A"]))).get? 1 = some tr
        ∧ tr.original = "b" ∧ tr.translated = .vstr "b" := by
  have h := bridge_padding
    [⟨"a", ⟨0, 0, 1, 1⟩⟩, ⟨"b", ⟨2, 2, 3, 3⟩⟩] (some (.varr [.vstr "A"]))
  refine ⟨h.1, ?_⟩
  obtain ⟨tr, h1, h2, h3⟩ := h.2 1 ⟨"b", ⟨2, 2, 3, 3⟩⟩ (by rfl)
  exact ⟨tr, h1, h2, h3 (Or.inr (Or.inl ⟨.varr [.vstr "A"], rfl, rfl⟩))⟩

/-! ## Theorems for the OCR block clusterer (C7, C10) -/

/-- C7: in each clustering step a token is ignored exactly when its
confidence is below 70 or its box is under 5px wide or tall; a surviving
token (with a current block open, i.e. non-empty text) is merged exactly
when its vertical gap is below 1.5× the current block height and its
horizontal gap lies strictly between −height and 3×height; otherwise it
closes the current block (appending it to the output) and starts a new one;
with no open block it starts the block. -/
theorem cluster_step_characterization (st : ClusterState) (w : Word) :
    ((w.confidence < 70 ∨ w.bbox.x1 - w.bbox.x0 < 5 ∨ w.bbox.y1 - w.bbox.y0 < 5) →
        processWord st w = st)
    ∧ (¬ (w.confidence < 70 ∨ w.bbox.x1 - w.bbox.x0 < 5 ∨ w.bbox.y1 - w.bbox.y0 < 5) →
        (st.currentBlock.text = "" →
            processWord st w = { st with currentBlock := ⟨w.text, w.bbox⟩ })
        ∧ (st.currentBlock.text ≠ "" →
            ((|w.bbox.y0 - st.currentBlock.bbox.y0|
                  < 1.5 * (st.currentBlock.bbox.y1 - st.currentBlock.bbox.y0)
                ∧ -(st.currentBlock.bbox.y1 - st.currentBlock.bbox.y0)
                    < w.bbox.x0 - st.currentBlock.bbox.x1
                ∧ w.bbox.x0 - st.currentBlock.bbox.x1
                    < 3 * (st.currentBlock.bbox.y1 - st.currentBlock.bbox.y0)) →
                processWord st w = { st with currentBlock :=
                  ⟨st.currentBlock.text ++ " " ++ w.text,
                    bboxHull st.currentBlock.bbox w.bbox⟩ })
            ∧ (¬ (|w.bbox.y0 - st.currentBlock.bbox.y0|
                  < 1.5 * (st.currentBlock.bbox.y1 - st.currentBlock.bbox.y0)
                ∧ -(st.currentBlock.bbox.y1 - st.currentBlock.bbox.y0)
                    < w.bbox.x0 - st.currentBlock.bbox.x1
                ∧ w.bbox.x0 - st.currentBlock.bbox.x1
                    < 3 * (st.currentBlock.bbox.y1 - st.currentBlock.bbox.y0)) →
                processWord st w
                  = ⟨st.blocks ++ [st.currentBlock], ⟨w.text, w.bbox⟩⟩))) := by
  have hmul : ∀ a : ℚ, a * 1.5 = 1.5 * a := fun a => mul_comm a 1.5
  have hmul3 : ∀ a : ℚ, a * 3 = 3 * a := fun a => mul_comm a 3
  refine ⟨?_, ?_⟩
  · rintro (h | h | h)
    · simp [processWord, h]
    · by_cases hc : w.confidence < 70 <;> simp [processWord, hc, h]
    · by_cases hc : w.confidence < 70 <;>
        by_cases hw : w.bbox.x1 - w.bbox.x0 < 5 <;> simp [processWord, hc, hw, h]
  · intro hkeep
    push_neg at hkeep
    obtain ⟨hc, hw, hh⟩ := hkeep
    have hc' : ¬ w.confidence < 70 := not_lt.2 hc
    have hw' : ¬ w.bbox.x1 - w.bbox.x0 < 5 := not_lt.2 hw
    have hh' : ¬ w.bbox.y1 - w.bbox.y0 < 5 := not_lt.2 hh
    refine ⟨fun hempty => ?_, fun hne => ⟨fun hcond => ?_, fun hcond => ?_⟩⟩
    · simp [processWord, hc', hw', hh', hempty]
    · have hcond' : mergeCond st.currentBlock w := by
        refine ⟨?_, hcond.2.1, ?_⟩
        · rw [hmul]; exact hcond.1
        · rw [hmul3]; exact hcond.2.2
      simp [processWord, hc', hw', hh', hne, hcond']
    · have hcond' : ¬ mergeCond st.currentBlock w := by
        intro ⟨h1, h2, h3⟩
        exact hcond ⟨by rw [← hmul]; exact h1, h2, by rw [← hmul3]; exact h3⟩
      simp [processWord, hc', hw', hh', hne, hcond']

/-- Witness for C7: a noisy token is dropped; a confident adjacent token is
merged into the open block. -/
theorem cluster_step_characterization_witness :
    processWord ⟨[], ⟨"hi", ⟨0, 0, 10, 10⟩⟩⟩ ⟨"x", ⟨0, 0, 2, 2⟩, 90⟩
        = ⟨[], ⟨"hi", ⟨0, 0, 10, 10⟩⟩⟩
    ∧ processWord ⟨[], ⟨"hi", ⟨0, 0, 10, 10⟩⟩⟩ ⟨"yo", ⟨12, 1, 20, 9⟩, 90⟩
        = ⟨[], ⟨"hi yo", bboxHull ⟨0, 0, 10, 10⟩ ⟨12, 1, 20, 9⟩⟩⟩ := by
  constructor
  · exact (cluster_step_characterization ⟨[], ⟨"hi", ⟨0, 0, 10, 10⟩⟩⟩
      ⟨"x", ⟨0, 0, 2, 2⟩, 90⟩).1 (by norm_num)
  · exact (((cluster_step_characterization ⟨[], ⟨"hi", ⟨0, 0, 10, 10⟩⟩⟩
      ⟨"yo", ⟨12, 1, 20, 9⟩, 90⟩).2 (by norm_num)).2 (by decide)).1 (by norm_num)

theorem processWordG_forget (st : GClusterState) (w : Word) :
    (processWordG st w).forget = processWord st.forget w := by
  unfold processWordG processWord GClusterState.forget
  by_cases hc : w.confidence < 70
  · simp [hc]
  · by_cases hw : w.bbox.x1 - w.bbox.x0 < 5 ∨ w.bbox.y1 - w.bbox.y0 < 5
    · simp [hc, hw]
    · by_cases he : st.currentBlock.block.text = ""
      · simp [hc, hw, he]
      · by_cases hm : mergeCond st.currentBlock.block w <;> simp [hc, hw, he, hm]

theorem foldl_processWordG_forget (ws : List Word) (st : GClusterState) :
    (ws.foldl processWordG st).forget = ws.foldl processWord st.forget := by
  induction ws generalizing st with
  | nil => rfl
  | cons w rest ih => rw [List.foldl_cons, List.foldl_cons, ih, processWordG_forget]

theorem bboxContains_trans {a b c : BBox} (h1 : bboxContains a b) (h2 : bboxContains b c) :
    bboxContains a c :=
  ⟨le_trans h1.1 h2.1, le_trans h1.2.1 h2.2.1,
    le_trans h2.2.2.1 h1.2.2.1, le_trans h2.2.2.2 h1.2.2.2⟩

theorem bboxContains_hull_left (a b : BBox) : bboxContains (bboxHull a b) a :=
  ⟨min_le_left _ _, min_le_left _ _, le_max_left _ _, le_max_left _ _⟩

theorem bboxContains_hull_right (a b : BBox) : bboxContains (bboxHull a b) b :=
  ⟨min_le_right _ _, min_le_right _ _, le_max_right _ _, le_max_right _ _⟩

theorem foldl_hull_contains_acc (ws : List Word) (acc : BBox) :
    bboxContains (ws.foldl (fun a w => bboxHull a w.bbox) acc) acc := by
  induction ws generalizing acc with
  | nil => exact ⟨le_refl _, le_refl _, le_refl _, le_refl _⟩
  | cons w rest ih =>
    exact bboxContains_trans (ih (bboxHull acc w.bbox)) (bboxContains_hull_left _ _)

theorem foldl_hull_contains_mem (ws : List Word) : ∀ (acc : BBox) (w : Word), w ∈ ws →
    bboxContains (ws.foldl (fun a x => bboxHull a x.bbox) acc) w.bbox := by
  induction ws with
  | nil => intro _ _ hw; cases hw
  | cons x rest ih =>
    intro acc w hw
    rcases List.mem_cons.mp hw with rfl | hmem
    · exact bboxContains_trans (foldl_hull_contains_acc rest (bboxHull acc w.bbox))
        (bboxContains_hull_right _ _)
    · exact ih (bboxHull acc x.bbox) w hmem

theorem hullOfTokens_contains (w0 : Word) (ws : List Word) (w : Word)
    (hw : w ∈ w0 :: ws) : bboxContains (hullOfTokens w0 ws) w.bbox := by
  rcases List.mem_cons.mp hw with rfl | hmem
  · exact foldl_hull_contains_acc ws w.bbox
  · exact foldl_hull_contains_mem ws w0.bbox w hmem

theorem string_append_ne_empty (s t : String) (h : s ≠ "") : s ++ t ≠ "" := by
  intro hc
  apply h
  have hlen := congrArg String.length hc
  rw [String.length_append] at hlen
  have h0 : ("" : String).length = 0 := rfl
  rw [h0] at hlen
  have : s.length = 0 := by omega
  cases s with
  | mk data =>
    cases data with
    | nil => rfl
    | cons c cs => simp [String.length, List.length] at this

/-- The step preserves well-formedness of all finished blocks and of the
current block whenever its text is non-empty. -/
theorem processWordG_wf (st : GClusterState) (w : Word)
    (hblocks : ∀ g ∈ st.blocks, GBlockWf g)
    (hcur : st.currentBlock.block.text ≠ "" → GBlockWf st.currentBlock) :
    (∀ g ∈ (processWordG st w).blocks, GBlockWf g)
    ∧ ((processWordG st w).currentBlock.block.text ≠ "" →
        GBlockWf (processWordG st w).currentBlock) := by
  unfold processWordG
  by_cases hc : w.confidence < 70
  · simpa [hc] using ⟨hblocks, hcur⟩
  · by_cases hw : w.bbox.x1 - w.bbox.x0 < 5 ∨ w.bbox.y1 - w.bbox.y0 < 5
    · simpa [hc, hw] using ⟨hblocks, hcur⟩
    · by_cases he : st.currentBlock.block.text = ""
      · simp only [hc, hw, he, if_true, if_false, ite_true, ite_false]
        refine ⟨hblocks, fun hne => ⟨hne, w, [], rfl, rfl⟩⟩
      · by_cases hm : mergeCond st.currentBlock.block w
        · simp only [hc, hw, he, hm, if_true, if_false, ite_true, ite_false]
          refine ⟨hblocks, fun _ => ?_⟩
          obtain ⟨hne, w0, ws, htok, hbbox⟩ := hcur he
          refine ⟨string_append_ne_empty _ _ (string_append_ne_empty _ _ hne),
            w0, ws ++ [w], ?_, ?_⟩
          · simp [htok]
          · simp [hbbox, hullOfTokens, List.foldl_append]
        · simp only [hc, hw, he, hm, if_true, if_false, ite_true, ite_false]
          constructor
          · intro g hg
            rcases List.mem_append.mp hg with hg | hg
            · exact hblocks g hg
            · rcases List.mem_singleton.mp hg with rfl
              exact hcur he
          · intro hne
            exact ⟨hne, w, [], rfl, rfl⟩

theorem foldl_processWordG_wf (ws : List Word) (st : GClusterState)
    (hblocks : ∀ g ∈ st.blocks, GBlockWf g)
    (hcur : st.currentBlock.block.text ≠ "" → GBlockWf st.currentBlock) :
    (∀ g ∈ (ws.foldl processWordG st).blocks, GBlockWf g)
    ∧ ((ws.foldl processWordG st).currentBlock.block.text ≠ "" →
        GBlockWf (ws.foldl processWordG st).currentBlock) := by
  induction ws generalizing st with
  | nil => exact ⟨hblocks, hcur⟩
  | cons w rest ih =>
    have h := processWordG_wf st w hblocks hcur
    exact ih (processWordG st w) h.1 h.2

/-- C10: the ghost clusterer projects exactly onto the clusterer, every
output block has non-empty text, its bounding box is the componentwise hull
(minima of `x0`/`y0`, maxima of `x1`/`y1`) of its starting token and all
tokens merged into it, and hence every such token's box sits inside the
block's box. -/
theorem cluster_blocks_hull (ws : List Word) :
    (clusterWordsG ws).map (·.block) = clusterWords ws
    ∧ ∀ g ∈ clusterWordsG ws,
        g.block.text ≠ ""
        ∧ (∃ w0 rest, g.tokens = w0 :: rest ∧ g.block.bbox = hullOfTokens w0 rest)
        ∧ ∀ w ∈ g.tokens, bboxContains g.block.bbox w.bbox := by
  constructor
  · have hproj := foldl_processWordG_forget ws initGClusterState
    have hinit : (initGClusterState).forget = initClusterState := rfl
    rw [hinit] at hproj
    unfold clusterWordsG clusterWords
    have hcurr : (ws.foldl processWordG initGClusterState).currentBlock.block
        = (ws.foldl processWord initClusterState).currentBlock := by
      rw [← hproj]; rfl
    have hblocks : (ws.foldl processWordG initGClusterState).blocks.map (·.block)
        = (ws.foldl processWord initClusterState).blocks := by
      rw [← hproj]; rfl
    by_cases he : (ws.foldl processWordG initGClusterState).currentBlock.block.text = ""
    · rw [if_pos he, if_pos (hcurr ▸ he), hblocks]
    · rw [if_neg he, if_neg (hcurr ▸ he)]
      simp [hblocks, hcurr]
  · intro g hg
    have hwf := foldl_processWordG_wf ws initGClusterState
      (by intro g hg; cases hg) (by intro h; cases h rfl)
    have hgwf : GBlockWf g := by
      unfold clusterWordsG at hg
      by_cases he : (ws.foldl processWordG initGClusterState).currentBlock.block.text = ""
      · rw [if_pos he] at hg
        exact hwf.1 g hg
      · rw [if_neg he] at hg
        rcases List.mem_append.mp hg with hmem | hmem
        · exact hwf.1 g hmem
        · rcases List.mem_singleton.mp hmem with rfl
          exact hwf.2 he
    obtain ⟨hne, w0, rest, htok, hbbox⟩ := hgwf
    refine ⟨hne, ⟨w0, rest, htok, hbbox⟩, ?_⟩
    intro w hw
    rw [htok] at hw
    rw [hbbox]
    exact hullOfTokens_contains w0 rest w hw

/-- Witness for C10: two merged tokens produce one block whose box is their
hull and whose token log is both tokens. -/
theorem cluster_blocks_hull_witness :
    ((clusterWordsG [⟨"hi", ⟨0, 0, 10, 10⟩, 90⟩, ⟨"yo", ⟨12, 1, 20, 9⟩, 90⟩]).map (·.block)
        = clusterWords [⟨"hi", ⟨0, 0, 10, 10⟩, 90⟩, ⟨"yo", ⟨12, 1, 20, 9⟩, 90⟩])
    ∧ ∀ g ∈ clusterWordsG [⟨"hi", ⟨0, 0, 10, 10⟩, 90⟩, ⟨"yo", ⟨12, 1, 20, 9⟩, 90⟩],
        g.block.text ≠ ""
        ∧ (∃ w0 rest, g.tokens = w0 :: rest ∧ g.block.bbox = hullOfTokens w0 rest)
        ∧ ∀ w ∈ g.tokens, bboxContains g.block.bbox w.bbox :=
  cluster_blocks_hull [⟨"hi", ⟨0, 0, 10, 10⟩, 90⟩, ⟨"yo", ⟨12, 1, 20, 9⟩, 90⟩]

/-! ## Chapter-map invariants shared by the chapter-list claims -/

theorem mem_mapSet {β : Type} (m : List (String × β)) (k : String) (v : β)
    (e : String × β) (he : e ∈ mapSet m k v) : e = (k, v) ∨ e ∈ m := by
  induction m with
  | nil => simpa [mapSet] using he
  | cons h t ih =>
    obtain ⟨k', v'⟩ := h
    by_cases hk : k' = k
    · subst hk
      rcases List.mem_cons.mp (by simpa [mapSet] using he) with rfl | hmem
      · exact Or.inl rfl
      · exact Or.inr (List.mem_cons_of_mem _ hmem)
    · rcases List.mem_cons.mp (by simpa [mapSet, hk] using he) with rfl | hmem
      · exact Or.inr (List.mem_cons_self _ _)
      · rcases ih hmem with h1 | h1
        · exact Or.inl h1
        · exact Or.inr (List.mem_cons_of_mem _ h1)

theorem mapSet_pairwise_keys {β : Type} (m : List (String × β)) (k : String) (v : β)
    (h : m.Pairwise (fun a b => a.1 ≠ b.1)) :
    (mapSet m k v).Pairwise (fun a b => a.1 ≠ b.1) := by
  induction m with
  | nil => simp [mapSet]
  | cons e t ih =>
    obtain ⟨k', v'⟩ := e
    rw [List.pairwise_cons] at h
    by_cases hk : k' = k
    · subst hk
      have hs : mapSet ((k', v') :: t) k' v = (k', v) :: t := by simp [mapSet]
      rw [hs, List.pairwise_cons]
      exact ⟨h.1, h.2⟩
    · simp only [mapSet, if_neg hk]
      rw [List.pairwise_cons]
      refine ⟨?_, ih h.2⟩
      intro e' he'
      rcases mem_mapSet t k v e' he' with rfl | hmem
      · exact hk
      · exact h.1 e' hmem

theorem chapterMapStep_inv {P : FeedChapter → Prop} (m : List (String × FeedChapter))
    (c : FeedChapter) (hm : ChapterMapInv P m) (hc : P c) :
    ChapterMapInv P (chapterMapStep m c) := by
  obtain ⟨hpw, hval⟩ := hm
  unfold chapterMapStep
  cases hch : c.chapter with
  | none => exact ⟨hpw, hval⟩
  | some chapNum =>
    by_cases hfilter : chapNum = "" ∨ chapNum = "0" ∨ chapNum = "0.0"
    · simpa [hfilter] using ⟨hpw, hval⟩
    · have hset : ChapterMapInv P (mapSet m chapNum c) := by
        refine ⟨mapSet_pairwise_keys m chapNum c hpw, ?_⟩
        intro e he
        rcases mem_mapSet m chapNum c e he with rfl | hmem
        · exact ⟨hch, hfilter, hc⟩
        · exact hval e hmem
      cases hget : mapGet? m chapNum with
      | none => simpa [hfilter, hget] using hset
      | some existing =>
        by_cases hrepl : langIndex existing.translatedLanguage = -1
            ∨ (langIndex c.translatedLanguage ≠ -1
                ∧ langIndex c.translatedLanguage < langIndex existing.translatedLanguage)
        · simpa [hfilter, hget, hrepl] using hset
        · simpa [hfilter, hget, hrepl] using ⟨hpw, hval⟩

theorem foldl_chapterMapStep_inv {P : FeedChapter → Prop} (data : List FeedChapter)
    (m : List (String × FeedChapter)) (hm : ChapterMapInv P m)
    (hdata : ∀ c ∈ data, P c) :
    ChapterMapInv P (data.foldl chapterMapStep m) := by
  induction data generalizing m with
  | nil => exact hm
  | cons c rest ih =>
    rw [List.foldl_cons]
    exact ih (chapterMapStep m c)
      (chapterMapStep_inv m c hm (hdata c (List.mem_cons_self _ _)))
      (fun x hx => hdata x (List.mem_cons_of_mem _ hx))

theorem jsSortInsert_perm (lt : α → α → Bool) (x : α) (l : List α) :
    (jsSortInsert lt x l).Perm (x :: l) := by
  induction l with
  | nil => exact List.Perm.refl _
  | cons g rest ih =>
    unfold jsSortInsert
    by_cases h : lt x g
    · simp [h]
    · simp only [h, if_false, ite_false]
      exact ((ih.cons g).trans (List.Perm.swap x g rest))

theorem jsSort_perm (lt : α → α → Bool) (l : List α) : (jsSort lt l).Perm l := by
  suffices h : ∀ acc : List α,
      (l.foldl (fun acc x => jsSortInsert lt x acc) acc).Perm (l.reverse ++ acc) by
    have hr : (l.reverse ++ []).Perm l := by
      rw [List.append_nil]
      exact List.reverse_perm l
    simpa [jsSort] using (h []).trans hr
  induction l with
  | nil => intro acc; simp
  | cons x rest ih =>
    intro acc
    rw [List.foldl_cons]
    refine (ih (jsSortInsert lt x acc)).trans ?_
    refine (List.Perm.append_left rest.reverse (jsSortInsert_perm lt x acc)).trans ?_
    have he : (x :: rest).reverse ++ acc = rest.reverse ++ (x :: acc) := by simp
    rw [he]

theorem buildChapterList_mem (data : List FeedChapter) (c : ChapterOut)
    (hc : c ∈ buildChapterList data) :
    ∃ e ∈ data.foldl chapterMapStep [],
      c = ⟨e.2.id, e.2.chapter, e.2.volume, e.2.title, e.2.translatedLanguage⟩ := by
  unfold buildChapterList at hc
  by_cases hd : data = []
  · simp [hd] at hc
  · rw [if_neg hd] at hc
    obtain ⟨v, hv, rfl⟩ := List.mem_map.mp hc
    have hv' : v ∈ (data.foldl chapterMapStep []).map (·.2) :=
      (jsSort_perm chapterLt _).mem_iff.mp hv
    obtain ⟨e, he, rfl⟩ := List.mem_map.mp hv'
    exact ⟨e, he, rfl⟩

theorem buildChapterList_chapter_good (data : List FeedChapter) (c : ChapterOut)
    (hc : c ∈ buildChapterList data) :
    ∃ k, c.chapter = some k ∧ keyGood k := by
  obtain ⟨e, he, rfl⟩ := buildChapterList_mem data c hc
  have hinv := foldl_chapterMapStep_inv (P := fun _ => True) data []
    ⟨List.Pairwise.nil, by simp⟩ (by simp)
  obtain ⟨hch, hgood, -⟩ := hinv.2 e he
  exact ⟨e.1, hch, hgood⟩

/-- C6 counterexample: for the mangakakalot source the chapter endpoint maps
the scrape result's chapters verbatim, with no chapter-0 filter: a scrape
feed whose only chapter is numbered `"0"` is returned as-is. -/
theorem chapter_zero_not_filtered_scrape :
    ∃ c ∈ (resolveChapters
        ⟨fun _ => [], fun _ => [], fun _ => [⟨[⟨"u", "0", "t"⟩]⟩]⟩
        "x" "T" "mangakakalot").1,
      c.chapter = some "0" := by
  refine ⟨⟨"u", some "0", none, some "t", "en"⟩, ?_, rfl⟩
  simp [resolveChapters]

/-- C6 (amended): on the primary (mangadex) path — including the
title-corrected refetch — every returned chapter has a chapter number that
is present, non-empty, and neither `"0"` nor `"0.0"`; the mangakakalot
branch returns scrape chapters unfiltered (see the counterexample). -/
theorem chapter_zero_filtered (env : ChapterEnv) (id title : String) (c : ChapterOut)
    (hc : c ∈ (resolveChapters env id title "mangadex").1) :
    c.chapter ≠ none ∧ c.chapter ≠ some "" ∧ c.chapter ≠ some "0"
      ∧ c.chapter ≠ some "0.0" := by
  have hgood : ∃ k, c.chapter = some k ∧ keyGood k := by
    unfold resolveChapters at hc
    rw [if_neg (by decide : ¬ ("mangadex" = "mangakakalot"))] at hc
    by_cases h1 : buildChapterList (env.feed id) = [] ∧ title ≠ ""
    · rw [if_pos h1] at hc
      cases hs : env.searchIds title with
      | nil =>
        rw [hs] at hc
        exact buildChapterList_chapter_good _ c hc
      | cons correctId rest =>
        rw [hs] at hc
        dsimp only at hc
        by_cases hid : correctId ≠ id
        · rw [if_pos hid] at hc
          exact buildChapterList_chapter_good _ c hc
        · rw [if_neg hid] at hc
          exact buildChapterList_chapter_good _ c hc
    · rw [if_neg h1] at hc
      exact buildChapterList_chapter_good _ c hc
  obtain ⟨k, hck, hkgood⟩ := hgood
  rw [hck]
  refine ⟨by simp, ?_, ?_, ?_⟩ <;>
    · intro h
      exact hkgood (by simp_all)

/-- Witness for C6: a feed containing chapters `"0"`, `"0.0"`, a missing
number and chapter `"1"` resolves to a list whose member (chapter `"1"`)
passes all four exclusions. -/
theorem chapter_zero_filtered_witness :
    (⟨"c1", some "1", none, none, "en"⟩ : ChapterOut).chapter ≠ none
    ∧ (⟨"c1", some "1", none, none, "en"⟩ : ChapterOut).chapter ≠ some ""
    ∧ (⟨"c1", some "1", none, none, "en"⟩ : ChapterOut).chapter ≠ some "0"
    ∧ (⟨"c1", some "1", none, none, "en"⟩ : ChapterOut).chapter ≠ some "0.0" :=
  chapter_zero_filtered
    ⟨fun _ => [⟨"z", some "0", none, none, "en"⟩, ⟨"z2", some "0.0", none, none, "en"⟩,
        ⟨"z3", none, none, none, "en"⟩, ⟨"c1", some "1", none, none, "en"⟩],
      fun _ => [], fun _ => []⟩
    "m" "" ⟨"c1", some "1", none, none, "en"⟩
    (by simp [resolveChapters, buildChapterList, chapterMapStep, mapGet?, mapSet,
          jsSort, jsSortInsert])

theorem numLE_trans {a b c : Option String} (h1 : numLE a b) (h2 : numLE b c) :
    numLE a c := by
  obtain ⟨x, y, hx, hy, hxy⟩ := h1
  obtain ⟨y', z, hy', hz, hyz⟩ := h2
  rw [hy] at hy'
  obtain rfl := Option.some_injective _ hy'
  exact ⟨x, z, hx, hz, le_trans hxy hyz⟩

theorem chapterLt_lt {a b : FeedChapter} (h : chapterLt a b = true) :
    numLE a.chapter b.chapter := by
  unfold chapterLt at h
  cases hx : a.chapter.bind jsParseFloat with
  | none => rw [hx] at h; simp at h
  | some x =>
    cases hy : b.chapter.bind jsParseFloat with
    | none => rw [hx, hy] at h; simp at h
    | some y =>
      rw [hx, hy] at h
      exact ⟨x, y, hx, hy, le_of_lt (by simpa using h)⟩

theorem chapterLt_ge {a b : FeedChapter} {x y : ℚ}
    (hx : a.chapter.bind jsParseFloat = some x)
    (hy : b.chapter.bind jsParseFloat = some y)
    (h : chapterLt a b = false) : numLE b.chapter a.chapter := by
  unfold chapterLt at h
  rw [hx, hy] at h
  exact ⟨y, x, hy, hx, le_of_not_lt (by simpa using h)⟩

theorem jsSortInsert_sorted (x : FeedChapter) (l : List FeedChapter)
    (hx : (chapKey x).isSome) (hl : ∀ c ∈ l, (chapKey c).isSome)
    (hsort : l.Pairwise (fun a b => numLE a.chapter b.chapter)) :
    (jsSortInsert chapterLt x l).Pairwise (fun a b => numLE a.chapter b.chapter) := by
  induction l with
  | nil => simp [jsSortInsert]
  | cons g rest ih =>
    rw [List.pairwise_cons] at hsort
    unfold jsSortInsert
    by_cases hlt : chapterLt x g = true
    · rw [if_pos hlt]
      refine List.Pairwise.cons ?_ (List.Pairwise.cons hsort.1 hsort.2)
      intro b hb
      rcases List.mem_cons.mp hb with rfl | hbm
      · exact chapterLt_lt hlt
      · exact numLE_trans (chapterLt_lt hlt) (hsort.1 b hbm)
    · rw [if_neg hlt]
      refine List.Pairwise.cons ?_
        (ih (fun c hcm => hl c (List.mem_cons_of_mem _ hcm)) hsort.2)
      intro b hb
      rcases List.mem_cons.mp ((jsSortInsert_perm chapterLt x rest).mem_iff.mp hb) with rfl | hbm
      · obtain ⟨xq, hxq⟩ := Option.isSome_iff_exists.mp hx
        obtain ⟨gq, hgq⟩ := Option.isSome_iff_exists.mp (hl g (List.mem_cons_self _ _))
        exact chapterLt_ge hxq hgq (Bool.not_eq_true _ ▸ hlt)
      · exact hsort.1 b hbm

theorem jsSort_sorted (l : List FeedChapter) (hl : ∀ c ∈ l, (chapKey c).isSome) :
    (jsSort chapterLt l).Pairwise (fun a b => numLE a.chapter b.chapter) := by
  suffices h : ∀ acc : List FeedChapter,
      acc.Pairwise (fun a b => numLE a.chapter b.chapter) →
      (∀ c ∈ acc, (chapKey c).isSome) →
      (∀ c ∈ l, (chapKey c).isSome) →
      (l.foldl (fun acc x => jsSortInsert chapterLt x acc) acc).Pairwise
        (fun a b => numLE a.chapter b.chapter) by
    exact h [] List.Pairwise.nil (by simp) hl
  clear hl
  induction l with
  | nil => intro acc hs _ _; exact hs
  | cons x rest ih =>
    intro acc hs hacc hmem
    rw [List.foldl_cons]
    refine ih (jsSortInsert chapterLt x acc) ?_ ?_
      (fun c hc => hmem c (List.mem_cons_of_mem _ hc))
    · exact jsSortInsert_sorted x acc (hmem x (List.mem_cons_self _ _)) hacc hs
    · intro c hc
      rcases List.mem_cons.mp ((jsSortInsert_perm chapterLt x acc).mem_iff.mp hc) with rfl | hcm
      · exact hmem c (List.mem_cons_self _ _)
      · exact hacc c hcm

/-- C3 (amended): chapter lists built from the primary feed have pairwise
distinct `chapterNumber` values unconditionally and, provided every retained
chapter number parses as a decimal number under `parseFloat`, are sorted
ascending numerically.  (With an unparsable number the comparator returns
`NaN`, for which ECMAScript leaves the order implementation-defined; and the
mangakakalot branch of the resolver returns scrape chapters unsorted — see
the counterexample.) -/
theorem chapter_list_unique_sorted (data : List FeedChapter)
    (hnum : ∀ c ∈ data, ∀ s, c.chapter = some s → (jsParseFloat s).isSome) :
    (buildChapterList data).Pairwise (fun a b => a.chapter ≠ b.chapter)
    ∧ (buildChapterList data).Pairwise (fun a b => numLE a.chapter b.chapter) := by
  by_cases hd : data = []
  · simp [buildChapterList, hd]
  · have hinv := foldl_chapterMapStep_inv (P := fun c => c ∈ data) data []
      ⟨List.Pairwise.nil, by simp⟩ (fun c hc => hc)
    have hvals : ∀ v ∈ (data.foldl chapterMapStep []).map (·.2), (chapKey v).isSome := by
      intro v hv
      obtain ⟨e, he, rfl⟩ := List.mem_map.mp hv
      obtain ⟨hch, hgood, hmem⟩ := hinv.2 e he
      have hp := hnum e.2 hmem e.1 hch
      simp [chapKey, hch, hp]
    have hsorted := jsSort_sorted ((data.foldl chapterMapStep []).map (·.2)) hvals
    have huniq_vals : ((data.foldl chapterMapStep []).map (·.2)).Pairwise
        (fun v w => v.chapter ≠ w.chapter) := by
      rw [List.pairwise_map]
      refine List.Pairwise.imp_of_mem ?_ hinv.1
      intro a b ha hb hne
      obtain ⟨hcha, -, -⟩ := hinv.2 a ha
      obtain ⟨hchb, -, -⟩ := hinv.2 b hb
      rw [hcha, hchb]
      intro hcontra
      exact hne (Option.some_injective _ hcontra)
    have huniq_sorted : (jsSort chapterLt ((data.foldl chapterMapStep []).map (·.2))).Pairwise
        (fun v w => v.chapter ≠ w.chapter) := by
      refine ((jsSort_perm chapterLt _).pairwise_iff ?_).mpr huniq_vals
      intro a b h
      exact fun hab => h hab.symm
    unfold buildChapterList
    rw [if_neg hd]
    constructor
    · rw [List.pairwise_map]
      exact huniq_sorted
    · rw [List.pairwise_map]
      exact hsorted

/-- Witness for C3 (amended) at the spec's own example feed
`["2", "10", "1.5"]`. -/
theorem chapter_list_unique_sorted_witness :
    (buildChapterList
        [⟨"a", some "2", none, none, "en"⟩, ⟨"b", some "10", none, none, "en"⟩,
          ⟨"c", some "1.5", none, none, "en"⟩]).Pairwise (fun a b => a.chapter ≠ b.chapter)
    ∧ (buildChapterList
        [⟨"a", some "2", none, none, "en"⟩, ⟨"b", some "10", none, none, "en"⟩,
          ⟨"c", some "1.5", none, none, "en"⟩]).Pairwise
        (fun a b => numLE a.chapter b.chapter) := by
  refine chapter_list_unique_sorted _ ?_
  intro c hc s hs
  simp only [List.mem_cons, List.not_mem_nil, or_false] at hc
  rcases hc with rfl | rfl | rfl
  · obtain rfl := Option.some_injective _ hs
    simp [jsParseFloat, digitsToNat]
  · obtain rfl := Option.some_injective _ hs
    simp [jsParseFloat, digitsToNat]
  · obtain rfl := Option.some_injective _ hs
    simp [jsParseFloat, digitsToNat]

/-- C3 counterexample: the mangakakalot branch of the resolver returns the
scrape feed's chapters verbatim, so chapter `"2"` precedes chapter `"1"` in
the returned list — not ascending numerical order. -/
theorem chapter_list_unsorted_scrape :
    ((resolveChapters envScrapeUnsorted "x" "T" "mangakakalot").1).map (·.chapter)
        = [some "2", some "1"]
    ∧ ¬ ((resolveChapters envScrapeUnsorted "x" "T" "mangakakalot").1).Pairwise
        (fun a b => numLE a.chapter b.chapter) := by
  have hl : (resolveChapters envScrapeUnsorted "x" "T" "mangakakalot").1
      = [⟨"u2", some "2", none, some "t", "en"⟩, ⟨"u1", some "1", none, some "t", "en"⟩] := by
    simp [resolveChapters, envScrapeUnsorted]
  constructor
  · rw [hl]; rfl
  · intro h
    rw [hl, List.pairwise_cons] at h
    obtain ⟨x, y, hx, hy, hxy⟩ := h.1 _ (List.mem_cons_self _ _)
    have hp2 : jsParseFloat "2" = some 2 := by simp [jsParseFloat, digitsToNat]
    have hp1 : jsParseFloat "1" = some 1 := by simp [jsParseFloat, digitsToNat]
    have hx' : jsParseFloat "2" = some x := hx
    have hy' : jsParseFloat "1" = some y := hy
    rw [hp2] at hx'
    rw [hp1] at hy'
    obtain rfl := Option.some_injective _ hx'.symm
    obtain rfl := Option.some_injective _ hy'.symm
    norm_num at hxy

theorem chapterMapStep_same_key (chapNum : String) (hgood : keyGood chapNum)
    (acc c : FeedChapter) (hc : c.chapter = some chapNum) :
    chapterMapStep [(chapNum, acc)] c = [(chapNum, pickVersion acc c)] := by
  unfold chapterMapStep pickVersion
  rw [hc]
  dsimp only
  have hfilter : ¬ (chapNum = "" ∨ chapNum = "0" ∨ chapNum = "0.0") := hgood
  rw [if_neg hfilter]
  have hget : mapGet? [(chapNum, acc)] chapNum = some acc := by simp [mapGet?]
  rw [hget]
  dsimp only
  by_cases hrepl : langIndex acc.translatedLanguage = -1
      ∨ (langIndex c.translatedLanguage ≠ -1
          ∧ langIndex c.translatedLanguage < langIndex acc.translatedLanguage)
  · rw [if_pos hrepl, if_pos hrepl]
    simp [mapSet]
  · rw [if_neg hrepl, if_neg hrepl]

theorem foldl_chapterMapStep_same_key (chapNum : String) (hgood : keyGood chapNum)
    (vs : List FeedChapter) (hall : ∀ c ∈ vs, c.chapter = some chapNum) :
    ∀ acc : FeedChapter,
      vs.foldl chapterMapStep [(chapNum, acc)] = [(chapNum, vs.foldl pickVersion acc)] := by
  induction vs with
  | nil => intro acc; rfl
  | cons c rest ih =>
    intro acc
    rw [List.foldl_cons,
      chapterMapStep_same_key chapNum hgood acc c (hall c (List.mem_cons_self _ _)),
      List.foldl_cons]
    exact ih (fun x hx => hall x (List.mem_cons_of_mem _ hx)) (pickVersion acc c)

theorem buildChapterList_same_key (chapNum : String) (hgood : keyGood chapNum)
    (v0 : FeedChapter) (vs : List FeedChapter)
    (hall : ∀ c ∈ v0 :: vs, c.chapter = some chapNum) :
    buildChapterList (v0 :: vs)
      = [⟨(vs.foldl pickVersion v0).id, (vs.foldl pickVersion v0).chapter,
          (vs.foldl pickVersion v0).volume, (vs.foldl pickVersion v0).title,
          (vs.foldl pickVersion v0).translatedLanguage⟩] := by
  unfold buildChapterList
  rw [if_neg (by simp : ¬ (v0 :: vs = []))]
  have hstep0 : chapterMapStep [] v0 = [(chapNum, v0)] := by
    unfold chapterMapStep
    rw [hall v0 (List.mem_cons_self _ _)]
    dsimp only
    have hfilter : ¬ (chapNum = "" ∨ chapNum = "0" ∨ chapNum = "0.0") := hgood
    rw [if_neg hfilter]
    simp [mapGet?, mapSet]
  rw [List.foldl_cons, hstep0,
    foldl_chapterMapStep_same_key chapNum hgood vs
      (fun x hx => hall x (List.mem_cons_of_mem _ hx)) v0]
  rfl

theorem foldl_pick_spec (vs : List FeedChapter) : ∀ v0 : FeedChapter,
    ∃ l1 l2, v0 :: vs = l1 ++ (vs.foldl pickVersion v0) :: l2
      ∧ ((∀ c ∈ v0 :: vs, langIndex c.translatedLanguage = -1) → l2 = [])
      ∧ (∀ c ∈ v0 :: vs, langIndex c.translatedLanguage ≠ -1 →
          langIndex (vs.foldl pickVersion v0).translatedLanguage ≠ -1
          ∧ langIndex (vs.foldl pickVersion v0).translatedLanguage
              ≤ langIndex c.translatedLanguage)
      ∧ (langIndex (vs.foldl pickVersion v0).translatedLanguage ≠ -1 →
          ∀ c ∈ l1, langIndex c.translatedLanguage
            ≠ langIndex (vs.foldl pickVersion v0).translatedLanguage) := by
  induction vs with
  | nil =>
    intro v0
    refine ⟨[], [], rfl, fun _ => rfl, ?_, ?_⟩
    · intro c hc hcl
      rcases List.mem_cons.mp hc with rfl | h
      · exact ⟨hcl, le_refl _⟩
      · cases h
    · intro _ c hc
      cases hc
  | cons b rest ih =>
    intro v0
    rw [List.foldl_cons]
    obtain ⟨l1', l2', hsplit, hB, hD, hE⟩ := ih (pickVersion v0 b)
    by_cases hcond : langIndex v0.translatedLanguage = -1
        ∨ (langIndex b.translatedLanguage ≠ -1
            ∧ langIndex b.translatedLanguage < langIndex v0.translatedLanguage)
    · -- the new version replaces: `pickVersion v0 b = b`, `v0` is dropped
      have hab : pickVersion v0 b = b := by unfold pickVersion; rw [if_pos hcond]
      rw [hab] at hsplit hB hD hE
      refine ⟨v0 :: l1', l2', ?_, ?_, ?_, ?_⟩
      · rw [List.cons_append]
        congr 1
        simpa [hab] using hsplit
      · intro hall
        exact hB (fun c hc => hall c (List.mem_cons_of_mem _ hc))
      · intro c hc hcl
        rw [hab]
        rcases List.mem_cons.mp hc with rfl | hc2
        · rcases hcond with h1 | ⟨hbne, hblt⟩
          · exact absurd h1 hcl
          · have hb := hD b (List.mem_cons_self _ _) hbne
            exact ⟨hb.1, le_trans hb.2 (le_of_lt hblt)⟩
        · exact hD c hc2 hcl
      · rw [hab]
        intro hkl c hc
        rcases List.mem_cons.mp hc with rfl | hc2
        · rcases hcond with h1 | ⟨hbne, hblt⟩
          · rw [h1]
            exact fun hcontra => hkl hcontra.symm
          · have hb := hD b (List.mem_cons_self _ _) hbne
            exact ne_of_gt (lt_of_le_of_lt hb.2 hblt)
        · exact hE hkl c hc2
    · -- the kept version survives: `pickVersion v0 b = v0`, `b` is dropped
      have hab : pickVersion v0 b = v0 := by unfold pickVersion; rw [if_neg hcond]
      push_neg at hcond
      obtain ⟨hv0ne, hbge⟩ := hcond
      rw [hab] at hsplit hB hD hE
      cases l1' with
      | nil =>
        rw [hab]
        have hkv : rest.foldl pickVersion v0 = v0 := by
          have h0 := hsplit
          rw [List.nil_append] at h0
          injection h0 with h1 h2
          exact h1.symm
        refine ⟨[], b :: rest, ?_, ?_, ?_, ?_⟩
        · rw [hkv, List.nil_append]
        · intro hall
          exact absurd (hall v0 (List.mem_cons_self _ _)) hv0ne
        · intro c hc hcl
          rw [hkv]
          rcases List.mem_cons.mp hc with rfl | hc2
          · exact ⟨hv0ne, le_refl _⟩
          · rcases List.mem_cons.mp hc2 with rfl | hc3
            · exact ⟨hv0ne, hbge hcl⟩
            · have hd := hD c (List.mem_cons_of_mem _ hc3) hcl
              rw [hkv] at hd
              exact hd
        · intro _ c hc
          cases hc
      | cons h t =>
        rw [hab]
        have hsplit' := hsplit
        rw [List.cons_append] at hsplit'
        injection hsplit' with hh hrest
        subst hh
        refine ⟨v0 :: b :: t, l2', ?_, ?_, ?_, ?_⟩
        · rw [List.cons_append, List.cons_append]
          congr 2
        · intro hall
          exact absurd (hall v0 (List.mem_cons_self _ _)) hv0ne
        · intro c hc hcl
          rcases List.mem_cons.mp hc with rfl | hc2
          · exact hD c (List.mem_cons_self _ _) hcl
          · rcases List.mem_cons.mp hc2 with rfl | hc3
            · have hv := hD v0 (List.mem_cons_self _ _) hv0ne
              exact ⟨hv.1, le_trans hv.2 (hbge hcl)⟩
            · exact hD c (List.mem_cons_of_mem _ hc3) hcl
        · intro hkl c hc
          rcases List.mem_cons.mp hc with rfl | hc2
          · exact hE hkl c (List.mem_cons_self _ _)
          · rcases List.mem_cons.mp hc2 with rfl | hc3
            · by_cases hbl : langIndex c.translatedLanguage = -1
              · rw [hbl]
                exact fun hcontra => hkl hcontra.symm
              · have hv := hD v0 (List.mem_cons_self _ _) hv0ne
                have hne := hE hkl v0 (List.mem_cons_self _ _)
                have hlt : langIndex (rest.foldl pickVersion v0).translatedLanguage
                    < langIndex v0.translatedLanguage := lt_of_le_of_ne hv.2 (Ne.symm hne)
                exact ne_of_gt (lt_of_lt_of_le hlt (hbge hbl))
            · exact hE hkl c (List.mem_cons_of_mem _ hc3)

/-- C4 counterexample: two versions of chapter `"5"` whose languages
(`"de"`, then `"it"`) are both outside the priority list.  The claim says
the first-seen (`"de"`, id `"a"`) is kept; the code replaces an incumbent
whose priority index is `-1`, so the last-seen (`"it"`, id `"b"`) wins. -/
theorem dedup_unlisted_keeps_last :
    buildChapterList
        [⟨"a", some "5", none, none, "de"⟩, ⟨"b", some "5", none, none, "it"⟩]
      = [⟨"b", some "5", none, none, "it"⟩]
    ∧ ("b" : String) ≠ "a" := by
  constructor
  · rfl
  · decide

/-- C4 (amended): for a primary feed consisting of versions of one retained
chapter number, the resolver keeps exactly one version `k` of the feed such
that: whenever some version's language is in the priority list, `k`'s
language is in the list, has the minimal priority index, and no
earlier-seen version shares that index (so equal-priority ties keep the
first-seen); but when no version's language is in the list, `k` is the
last-seen version, since each unlisted newcomer replaces an unlisted
incumbent. -/
theorem dedup_language_priority (chapNum : String) (hgood : keyGood chapNum)
    (v0 : FeedChapter) (vs : List FeedChapter)
    (hall : ∀ c ∈ v0 :: vs, c.chapter = some chapNum) :
    ∃ k l1 l2,
      buildChapterList (v0 :: vs)
          = [⟨k.id, k.chapter, k.volume, k.title, k.translatedLanguage⟩]
      ∧ v0 :: vs = l1 ++ k :: l2
      ∧ ((∀ c ∈ v0 :: vs, langIndex c.translatedLanguage = -1) → l2 = [])
      ∧ (∀ c ∈ v0 :: vs, langIndex c.translatedLanguage ≠ -1 →
          langIndex k.translatedLanguage ≠ -1
          ∧ langIndex k.translatedLanguage ≤ langIndex c.translatedLanguage)
      ∧ (langIndex k.translatedLanguage ≠ -1 →
          ∀ c ∈ l1, langIndex c.translatedLanguage ≠ langIndex k.translatedLanguage) := by
  obtain ⟨l1, l2, hsplit, hB, hD, hE⟩ := foldl_pick_spec vs v0
  exact ⟨vs.foldl pickVersion v0, l1, l2,
    buildChapterList_same_key chapNum hgood v0 vs hall, hsplit, hB, hD, hE⟩

/-- Witness for C4 at the spec's example: chapter `"5"` in `en` and `ja`. -/
theorem dedup_language_priority_witness :
    ∃ k l1 l2,
      buildChapterList
          [⟨"a", some "5", none, none, "en"⟩, ⟨"b", some "5", none, none, "ja"⟩]
          = [⟨k.id, k.chapter, k.volume, k.title, k.translatedLanguage⟩]
      ∧ ([⟨"a", some "5", none, none, "en"⟩, ⟨"b", some "5", none, none, "ja"⟩]
            : List FeedChapter) = l1 ++ k :: l2
      ∧ ((∀ c ∈ ([⟨"a", some "5", none, none, "en"⟩, ⟨"b", some "5", none, none, "ja"⟩]
            : List FeedChapter), langIndex c.translatedLanguage = -1) → l2 = [])
      ∧ (∀ c ∈ ([⟨"a", some "5", none, none, "en"⟩, ⟨"b", some "5", none, none, "ja"⟩]
            : List FeedChapter), langIndex c.translatedLanguage ≠ -1 →
          langIndex k.translatedLanguage ≠ -1
          ∧ langIndex k.translatedLanguage ≤ langIndex c.translatedLanguage)
      ∧ (langIndex k.translatedLanguage ≠ -1 →
          ∀ c ∈ l1, langIndex c.translatedLanguage ≠ langIndex k.translatedLanguage) :=
  dedup_language_priority "5" (by decide) ⟨"a", some "5", none, none, "en"⟩
    [⟨"b", some "5", none, none, "ja"⟩]
    (by
      intro c hc
      simp only [List.mem_cons, List.not_mem_nil, or_false] at hc
      rcases hc with rfl | rfl <;> rfl)
